import Mathlib

/-!
Verification development for the pyve virtual-environment manager.

The definitions below are a shallow embedding of the text-processing core of
the repository: the shell-config install logic of `vex.py`
(`VenvManager.install_shell_integration`) and of
`install_shell_integration.py`, the region detector of `clean_zshrc.py`
(`clean_zshrc`), the flat-file tracking store
(`_update_global_tracking` / `_get_env_from_tracking` /
`_remove_from_global_tracking`), the directory-association store
(`_update_directory_mapping` / `get_auto_activate_env`), the pruning listing
(`list_venvs`) and the deletion flow (`delete_venv`).

Text content is modelled as a list of characters; line splitting is modelled
for LF line breaks, which is the separator the code itself writes.  The
filesystem is modelled by explicit oracles (`existsFS`, `isDir`) passed as
parameters, and paths are compared through their non-empty `/`-separated
components, mirroring normalised `pathlib.Path` equality for absolute paths.
-/

namespace Pyve

/-- Text content, modelled as the list of its characters. -/
abbrev Content := List Char

/-- Characters stripped by Python `str.strip`/`lstrip`/`rstrip`. -/
def pyIsSpace (c : Char) : Bool :=
  c == ' ' || c == '\t' || c == '\n' || c == '\r' || c == '\x0b' || c == '\x0c'

/-- Python `str.lstrip()`. -/
def lstrip (s : Content) : Content := s.dropWhile pyIsSpace

/-- Python `str.rstrip()`. -/
def rstrip (s : Content) : Content := (s.reverse.dropWhile pyIsSpace).reverse

/-- Python `str.strip()`. -/
def strip (s : Content) : Content := lstrip (rstrip s)

/-- Python substring test `p in s`. -/
def isSub (p : Content) : Content → Bool
  | [] => p.isEmpty
  | c :: t => p.isPrefixOf (c :: t) || isSub p t

/-- Python `str.splitlines()` for LF line breaks. -/
def splitlines : Content → List Content
  | [] => []
  | c :: cs =>
    if c = '\n' then [] :: splitlines cs
    else
      match splitlines cs with
      | [] => [[c]]
      | h :: t => (c :: h) :: t

/-- Python `"\n".join(lines)`. -/
def joinLines : List Content → Content
  | [] => []
  | l :: ls =>
    match ls with
    | [] => l
    | _ :: _ => l ++ '\n' :: joinLines ls

/-- Python `s.split(sep, 1)` returning the two parts when `sep` occurs. -/
def splitOnce (sep : Char) : Content → Option (Content × Content)
  | [] => none
  | c :: cs =>
    if c = sep then some ([], cs)
    else (splitOnce sep cs).map (fun p => (c :: p.1, p.2))

/-- Shorthand for string literals as character lists. -/
def toL (s : String) : Content := s.toList

example : toL "ab" = ['a', 'b'] := by decide
example : splitlines (toL "a\nb\n") = [toL "a", toL "b"] := by decide
example : joinLines [toL "a", toL "b"] = toL "a\nb" := by decide
example : splitOnce ' ' (toL "a b c") = some (toL "a", toL "b c") := by decide
example : isSub (toL "bc") (toL "abcd") = true := by decide
example : rstrip (toL "a b  ") = toL "a b" := by decide

/-! ### The region detector of `clean_zshrc.py` -/

/-- The marker comment `ve_marker` shared by install, detect and uninstall. -/
def veMarker : Content := toL "# Virtual Environment Manager (ve) Integration"

/-- Detection phrase `"Virtual Environment Manager"` of `clean_zshrc`. -/
def phrase1 : Content := toL "Virtual Environment Manager"

/-- Detection phrase of the descriptive integration comment. -/
def phrase2 : Content := toL "This enables proper activation of virtual environments"

/-- The first branch of the `clean_zshrc` loop: ve integration markers. -/
def isMarkerLine (l : Content) : Bool :=
  isSub phrase1 l || isSub phrase2 l || veMarker.isPrefixOf (strip l)

/-- The second branch of the `clean_zshrc` loop: a non-comment `ve()`
function-definition line. -/
def isVeFnLine (l : Content) : Bool :=
  (isSub (toL "ve()") l || isSub (toL "function ve()") l)
    && !((toL "#").isPrefixOf (strip l))

/-- Count of opening minus closing braces on a line. -/
def braceDelta (l : Content) : Int :=
  (l.count '{' : Int) - (l.count '}' : Int)

/-- Lines that keep the marker section open in `clean_zshrc`. -/
def helperKeep (l : Content) : Bool :=
  isSub (toL "_ve_auto_activate") l || isSub (toL "add-zsh-hook") l
    || (toL "fi").isPrefixOf (strip l)

/-- Python `line.strip() == ""`. -/
def isBlank (l : Content) : Bool := strip l == []

/-- The lookahead condition of `clean_zshrc` deciding that a blank line ends
the marker section: the next line exists, is non-blank, is not a comment and
does not mention `ve` or `_ve_auto_activate`. -/
def sectionEndNext : List Content → Bool
  | [] => false
  | nxt :: _ =>
    !(isBlank nxt) && !((toL "#").isPrefixOf (strip nxt))
      && !(isSub (toL "ve") nxt) && !(isSub (toL "_ve_auto_activate") nxt)

/-- Scanner state of `clean_zshrc`: `in_ve_section`, `in_ve_function`,
`brace_count`. -/
structure ScanSt where
  sec : Bool
  fn : Bool
  brace : Int
deriving DecidableEq

/-- The line-scanning loop of `clean_zshrc`, branch for branch: marker lines
enter section mode, non-comment `ve()` lines enter function mode resetting the
brace balance, function mode drops lines while adjusting the balance until it
reaches `≤ 0`, section mode drops lines until a blank line satisfying the
lookahead condition, and every other line is kept. -/
def cleanLines : ScanSt → List Content → List Content
  | _, [] => []
  | st, l :: rest =>
    if isMarkerLine l then cleanLines ⟨true, st.fn, st.brace⟩ rest
    else if isVeFnLine l then cleanLines ⟨st.sec, true, braceDelta l⟩ rest
    else if st.fn then
      let b := st.brace + braceDelta l
      if b ≤ 0 then cleanLines ⟨st.sec, false, b⟩ rest
      else cleanLines ⟨st.sec, true, b⟩ rest
    else if st.sec then
      if helperKeep l then cleanLines st rest
      else if isBlank l && sectionEndNext rest then
        l :: cleanLines ⟨false, st.fn, st.brace⟩ rest
      else cleanLines st rest
    else l :: cleanLines st rest

/-- The scanner's initial state. -/
def initSt : ScanSt := ⟨false, false, 0⟩

/-- `clean_zshrc` as a content transformation: split into lines, scan, join
with LF (the written file has no trailing newline). -/
def cleanContent (s : Content) : Content :=
  joinLines (cleanLines initSt (splitlines s))

/-! ### The shell-config install of `vex.py` -/

/-- Outcome of `VenvManager.install_shell_integration` on the config file:
the resulting content, whether the file was written, and the returned
success flag. -/
structure InstallResult where
  content : Content
  wrote : Bool
  ok : Bool
deriving DecidableEq

/-- The `ve()`-function presence test of the installers. -/
def hasVeFunction (c : Content) : Bool :=
  isSub (toL "ve()") c || isSub (toL "function ve()") c
    || isSub (toL "function ve") c

/-- The config mutation of `VenvManager.install_shell_integration`
(`vex.py`): skip when the source line or the marker is already present, skip
when a foreign `ve` function exists, otherwise append the block
`"\n\n" + marker + "\n" + source_line + "\n"` to the right-stripped content. -/
def vexInstall (c : Content) (sourceLine : Content) : InstallResult :=
  if isSub sourceLine c || isSub veMarker c then ⟨c, false, true⟩
  else if hasVeFunction c then ⟨c, false, true⟩
  else ⟨rstrip c ++ '\n' :: '\n' :: (veMarker ++ '\n' :: (sourceLine ++ ['\n'])),
        true, true⟩

/-! ### The standalone installer `install_shell_integration.py` -/

/-- The removal scan of `install_shell_integration.py` run before a confirmed
reinstall: skip from a marker line until a blank or `end` line, drop lines
equal (stripped) to the new source line or mentioning the target script, keep
everything else outside the skipped region. -/
def installerRemove (sourceLine targetScript : Content) :
    Bool → List Content → List Content
  | _, [] => []
  | skip, l :: rest =>
    if isSub veMarker l then installerRemove sourceLine targetScript true rest
    else if skip && (strip l == [] || strip l == toL "end") then
      installerRemove sourceLine targetScript false rest
    else if strip l == sourceLine || isSub targetScript l then
      installerRemove sourceLine targetScript skip rest
    else if !skip then l :: installerRemove sourceLine targetScript skip rest
    else installerRemove sourceLine targetScript skip rest

/-- The config mutation of `install_shell_integration.py` with the reinstall
prompt answered `y`: when the source line or marker is present, remove the
existing integration and re-append the block; when a foreign `ve` function
exists, skip; otherwise append the block. -/
def installerInstall (c : Content) (sourceLine targetScript : Content) :
    Content :=
  if isSub sourceLine c || isSub veMarker c then
    let c' := joinLines (installerRemove sourceLine targetScript false
      (splitlines c))
    rstrip c' ++ '\n' :: '\n' :: (veMarker ++ '\n' :: (sourceLine ++ ['\n']))
  else if hasVeFunction c then c
  else rstrip c ++ '\n' :: '\n' :: (veMarker ++ '\n' :: (sourceLine ++ ['\n']))

/-! ### The tracking store of `vex.py` -/

/-- The line scan of `_get_env_from_tracking`: strip each line, split on the
first space, return the value of the first line whose name part matches. -/
def trackingLookupLines (name : Content) : List Content → Option Content
  | [] => none
  | l :: rest =>
    match splitOnce ' ' (strip l) with
    | some (n, v) => if n == name then some v else trackingLookupLines name rest
    | none => trackingLookupLines name rest

/-- `VenvManager._get_env_from_tracking` over the store file content. -/
def trackingLookup (s : Content) (name : Content) : Option Content :=
  trackingLookupLines name (splitlines s)

/-- `VenvManager._update_global_tracking`: drop every line starting with
`name + " "`, append the new entry, rewrite joined with a trailing newline. -/
def trackingUpsert (s : Content) (name value : Content) : Content :=
  joinLines ((splitlines s).filter (fun l => !((name ++ [' ']).isPrefixOf l))
    ++ [name ++ ' ' :: value]) ++ ['\n']

/-- `VenvManager._remove_from_global_tracking`. -/
def trackingRemove (s : Content) (name : Content) : Content :=
  joinLines ((splitlines s).filter (fun l => !((name ++ [' ']).isPrefixOf l)))
    ++ ['\n']

/-! ### The directory-association store of `vex.py` -/

/-- One store update of `_update_directory_mapping`: drop every line starting
with `dir + ":"`, append `dir + ":" + env`, rewrite with trailing newline. -/
def dirUpsertContent (s : Content) (dir env : Content) : Content :=
  joinLines ((splitlines s).filter (fun l => !((dir ++ [':']).isPrefixOf l))
    ++ [dir ++ ':' :: env]) ++ ['\n']

/-- `VenvManager._update_directory_mapping` updates the new-format
(`atv_history`) and old-format (`venv_pdirs`) stores with the same entry. -/
def dirUpsertBoth (atv assoc : Content) (dir env : Content) :
    Content × Content :=
  (dirUpsertContent atv dir env, dirUpsertContent assoc dir env)

/-- The scan of `get_auto_activate_env`: first line containing `:` whose
directory part equals the directory and whose environment has a non-empty
tracking entry pointing to an existing path. -/
def autoScan (tracking : Content) (existsFS : Content → Bool) (dir : Content) :
    List Content → Option Content
  | [] => none
  | l :: rest =>
    match splitOnce ':' l with
    | some (d, e) =>
      if d == dir then
        match trackingLookup tracking e with
        | some p =>
          if !p.isEmpty && existsFS p then some e
          else autoScan tracking existsFS dir rest
        | none => autoScan tracking existsFS dir rest
      else autoScan tracking existsFS dir rest
    | none => autoScan tracking existsFS dir rest

/-- `VenvManager.get_auto_activate_env` over the `atv_history` content, with
the filesystem as an oracle. -/
def getAutoActivateEnv (atv tracking : Content) (existsFS : Content → Bool)
    (dir : Content) : Option Content :=
  autoScan tracking existsFS dir (splitlines atv)

/-! ### The pruning listing `list_venvs` of `vex.py` -/

/-- `VenvManager.list_venvs` restricted to its store effect: keep the lines
that strip-split into an entry whose path exists; when any line was dropped,
rewrite the store and report the number of dropped lines, otherwise leave the
file untouched and report `0`. -/
def listVenvs (s : Content) (existsFS : Content → Bool) : Content × Nat :=
  let orig := splitlines s
  let valid := orig.filter (fun l =>
    match splitOnce ' ' (strip l) with
    | some p => existsFS p.2
    | none => false)
  if valid.length < orig.length then
    (joinLines valid ++ ['\n'], orig.length - valid.length)
  else (s, 0)

/-! ### The deletion flow `delete_venv` of `vex.py` -/

/-- Path components of an absolute path string: the non-empty `/`-separated
segments, mirroring normalised `pathlib.Path` comparison; `/` maps to `[]`. -/
def splitAllChar (sep : Char) : Content → List Content
  | [] => [[]]
  | c :: cs =>
    match splitAllChar sep cs with
    | [] => [[c]]
    | h :: t => if c = sep then [] :: h :: t else (c :: h) :: t

/-- Components of a path string. -/
def pathComponents (s : Content) : List Content :=
  (splitAllChar '/' s).filter (fun c => !c.isEmpty)

/-- Refusal causes of `delete_venv`, one per early-return branch. -/
inductive DeleteErr where
  | emptyName
  | notFound
  | activeVenv
  | unsafePath
  | notValidDir
  | notConfirmed
deriving DecidableEq

/-- Observable outcome of `delete_venv`: the error (or `none` on success),
the tracking-store content afterwards, and the directories removed. -/
structure DeleteOutcome where
  err : Option DeleteErr
  tracking : Content
  removedDirs : List (List Content)
deriving DecidableEq

/-- `VenvManager.delete_venv`, branch for branch.  The failure branches for
an empty name and for an unknown name run `list_venvs`, which may prune the
store; every other refusal leaves the store untouched; the success branch
removes the venv directory and the tracking entry.  (`not venv_path` in the
source is never true, since `pathlib.Path` objects are always truthy.) -/
def deleteVenv (home : List Content) (currentVenv : Option Content)
    (isDir : List Content → Bool) (existsFS : Content → Bool)
    (confirmed : Bool) (tracking : Content) (name : Content) : DeleteOutcome :=
  if name.isEmpty then
    ⟨some .emptyName, (listVenvs tracking existsFS).1, []⟩
  else
    match trackingLookup tracking name with
    | none => ⟨some .notFound, (listVenvs tracking existsFS).1, []⟩
    | some ap =>
      let venvPath := (pathComponents ap).dropLast.dropLast
      if currentVenv.any (fun cv => pathComponents cv == venvPath) then
        ⟨some .activeVenv, tracking, []⟩
      else if venvPath = [] ∨ venvPath = home then
        ⟨some .unsafePath, tracking, []⟩
      else if !isDir venvPath || !existsFS ap then
        ⟨some .notValidDir, tracking, []⟩
      else if !confirmed then ⟨some .notConfirmed, tracking, []⟩
      else ⟨none, trackingRemove tracking name, [venvPath]⟩

example :
    pathComponents (toL "/home/u/bin/activate") =
      [toL "home", toL "u", toL "bin", toL "activate"] := by decide

example : cleanContent (toL "keep\n\n# Virtual Environment Manager (ve) Integration\nsource x\n") = toL "keep\n" := by decide

/-! ### Lemmas about the text primitives -/

theorem isPrefixOf_self_append (p t : Content) :
    p.isPrefixOf (p ++ t) = true := by
  simp

theorem exists_of_isPrefixOf {p s : Content} (h : p.isPrefixOf s = true) :
    ∃ t, s = p ++ t := by
  obtain ⟨t, ht⟩ := List.isPrefixOf_iff_prefix.mp h
  exact ⟨t, ht.symm⟩

theorem mem_of_isSub : ∀ {s p : Content}, isSub p s = true →
    ∀ c ∈ p, c ∈ s := by
  intro s
  induction s with
  | nil =>
    intro p h c hc
    simp only [isSub, List.isEmpty_iff] at h
    subst h
    simp at hc
  | cons a t ih =>
    intro p h c hc
    simp only [isSub, Bool.or_eq_true] at h
    rcases h with h | h
    · obtain ⟨u, hu⟩ := exists_of_isPrefixOf h
      rw [hu]
      exact List.mem_append_left _ hc
    · exact List.mem_cons_of_mem _ (ih h c hc)

theorem isSub_nil_left : ∀ s : Content, isSub [] s = true := by
  intro s
  cases s with
  | nil => rfl
  | cons c t => simp [isSub]

theorem isSub_append_mid (p y : Content) : ∀ x : Content,
    isSub p (x ++ (p ++ y)) = true := by
  intro x
  induction x with
  | nil =>
    cases p with
    | nil => simpa using isSub_nil_left y
    | cons c cs =>
      simp only [List.nil_append, List.cons_append, isSub, Bool.or_eq_true]
      exact Or.inl (by simp)
  | cons a x' ih =>
    simp only [List.cons_append, isSub, Bool.or_eq_true]
    exact Or.inr ih

theorem splitOnce_eq_some {sep : Char} : ∀ {s a b : Content},
    splitOnce sep s = some (a, b) → s = a ++ sep :: b ∧ sep ∉ a := by
  intro s
  induction s with
  | nil => intro a b h; simp [splitOnce] at h
  | cons c cs ih =>
    intro a b h
    simp only [splitOnce] at h
    by_cases hc : c = sep
    · simp only [hc, if_pos rfl, Option.some.injEq, Prod.mk.injEq] at h
      obtain ⟨rfl, rfl⟩ := h
      exact ⟨by simp [hc], by simp⟩
    · simp only [if_neg hc, Option.map_eq_some'] at h
      obtain ⟨⟨a', b'⟩, hp, h2⟩ := h
      have ha : c :: a' = a := congrArg Prod.fst h2
      have hb : b' = b := congrArg Prod.snd h2
      subst ha
      subst hb
      obtain ⟨h3, h4⟩ := ih hp
      refine ⟨by simp [h3], ?_⟩
      intro hm
      rcases List.mem_cons.mp hm with h5 | h5
      · exact hc h5.symm
      · exact h4 h5

theorem splitOnce_append {sep : Char} : ∀ {a : Content}, sep ∉ a →
    ∀ b, splitOnce sep (a ++ sep :: b) = some (a, b) := by
  intro a
  induction a with
  | nil => intro _ b; simp [splitOnce]
  | cons c cs ih =>
    intro h b
    have hc : ¬ c = sep := fun hcs => h (hcs ▸ List.mem_cons_self c cs)
    have h' : sep ∉ cs := fun hm => h (List.mem_cons_of_mem _ hm)
    simp [splitOnce, hc, ih h' b]

theorem splitlines_cons_nl (cs : Content) :
    splitlines ('\n' :: cs) = [] :: splitlines cs := by
  simp [splitlines]

theorem splitlines_cons {c : Char} (hc : c ≠ '\n') (cs : Content) :
    splitlines (c :: cs) =
      match splitlines cs with
      | [] => [[c]]
      | h :: t => (c :: h) :: t := by
  rw [splitlines, if_neg hc]

theorem splitlines_ne_nil : ∀ {s : Content}, s ≠ [] → splitlines s ≠ [] := by
  intro s h
  cases s with
  | nil => exact absurd rfl h
  | cons c cs =>
    by_cases hc : c = '\n'
    · subst hc
      rw [splitlines_cons_nl]
      simp
    · rw [splitlines_cons hc]
      cases splitlines cs <;> simp

theorem splitlines_append {A : Content} (h : '\n' ∉ A) : ∀ B : Content,
    splitlines (A ++ '\n' :: B) = A :: splitlines B := by
  induction A with
  | nil => intro B; simpa using splitlines_cons_nl B
  | cons c cs ih =>
    intro B
    have hc : c ≠ '\n' := fun hcs => h (hcs ▸ List.mem_cons_self c cs)
    have h' : '\n' ∉ cs := fun hm => h (List.mem_cons_of_mem _ hm)
    rw [List.cons_append, splitlines_cons hc, ih h' B]

theorem splitlines_append' : ∀ {A : Content}, A ≠ [] →
    A.getLast? ≠ some '\n' → ∀ B : Content,
    splitlines (A ++ '\n' :: B) = splitlines A ++ splitlines B := by
  intro A
  induction A with
  | nil => intro h; exact absurd rfl h
  | cons c cs ih =>
    intro _ hlast B
    cases cs with
    | nil =>
      have hc : c ≠ '\n' := by
        intro hcs
        exact hlast (by simp [hcs])
      rw [List.cons_append, List.nil_append, splitlines_cons hc,
        splitlines_cons_nl, splitlines_cons hc]
      simp [splitlines]
    | cons d ds =>
      have hlast' : (d :: ds).getLast? ≠ some '\n' := by
        simpa [List.getLast?_cons_cons] using hlast
      have ih' := ih (by simp) hlast' B
      obtain ⟨h0, t0, e0⟩ : ∃ h0 t0, splitlines (d :: ds) = h0 :: t0 := by
        cases e : splitlines (d :: ds) with
        | nil => exact absurd e (splitlines_ne_nil (by simp))
        | cons h0 t0 => exact ⟨h0, t0, rfl⟩
      by_cases hc : c = '\n'
      · subst hc
        rw [List.cons_append, splitlines_cons_nl, ih', splitlines_cons_nl]
        simp
      · rw [List.cons_append, splitlines_cons hc, ih', e0, List.cons_append,
          splitlines_cons hc, e0]
        simp

theorem joinLines_cons_cons (l m : Content) (ms : List Content) :
    joinLines (l :: m :: ms) = l ++ '\n' :: joinLines (m :: ms) := by
  rfl

theorem joinLines_splitlines : ∀ {s : Content}, s.getLast? ≠ some '\n' →
    joinLines (splitlines s) = s := by
  intro s
  induction s with
  | nil => intro _; rfl
  | cons c cs ih =>
    intro hlast
    cases cs with
    | nil =>
      have hc : c ≠ '\n' := by
        intro hcs
        exact hlast (by simp [hcs])
      rw [splitlines_cons hc]
      rfl
    | cons d ds =>
      have hlast' : (d :: ds).getLast? ≠ some '\n' := by
        simpa [List.getLast?_cons_cons] using hlast
      have ih' := ih hlast'
      obtain ⟨h0, t0, e0⟩ : ∃ h0 t0, splitlines (d :: ds) = h0 :: t0 := by
        cases e : splitlines (d :: ds) with
        | nil => exact absurd e (splitlines_ne_nil (by simp))
        | cons h0 t0 => exact ⟨h0, t0, rfl⟩
      rw [e0] at ih'
      by_cases hc : c = '\n'
      · subst hc
        rw [splitlines_cons_nl, e0, joinLines_cons_cons, ih']
        rfl
      · rw [splitlines_cons hc, e0]
        cases t0 with
        | nil => exact congrArg (List.cons c) ih'
        | cons u us =>
          rw [joinLines_cons_cons] at ih'
          rw [joinLines_cons_cons, List.cons_append, ih']

theorem mem_splitlines_nlfree : ∀ {s l : Content}, l ∈ splitlines s →
    '\n' ∉ l := by
  intro s
  induction s with
  | nil => intro l h; simp [splitlines] at h
  | cons c cs ih =>
    intro l h
    by_cases hc : c = '\n'
    · subst hc
      rw [splitlines_cons_nl] at h
      rcases List.mem_cons.mp h with rfl | h2
      · simp
      · exact ih h2
    · rw [splitlines_cons hc] at h
      cases e : splitlines cs with
      | nil =>
        rw [e] at h
        rcases List.mem_cons.mp h with rfl | h2
        · intro hm
          rcases List.mem_cons.mp hm with h3 | h3
          · exact hc h3.symm
          · simp at h3
        · simp at h2
      | cons h0 t0 =>
        rw [e] at h
        rcases List.mem_cons.mp h with rfl | h2
        · intro hm
          rcases List.mem_cons.mp hm with h3 | h3
          · exact hc h3.symm
          · exact ih (e ▸ List.mem_cons_self h0 t0) h3
        · exact ih (e ▸ List.mem_cons_of_mem h0 h2)

theorem splitlines_joinLines : ∀ {L : List Content}, L ≠ [] →
    (∀ l ∈ L, '\n' ∉ l) → splitlines (joinLines L ++ ['\n']) = L := by
  intro L
  induction L with
  | nil => intro h; exact absurd rfl h
  | cons l ls ih =>
    intro _ hfree
    cases ls with
    | nil =>
      have e : joinLines [l] = l := rfl
      rw [e]
      have := splitlines_append (hfree l (by simp)) []
      simpa using this
    | cons m ms =>
      have ih' := ih (by simp) (fun x hx => hfree x (List.mem_cons_of_mem _ hx))
      rw [joinLines_cons_cons, List.append_assoc, List.cons_append,
        splitlines_append (hfree l (by simp)), ih']

theorem joinLines_concat : ∀ {L : List Content}, L ≠ [] → ∀ x,
    joinLines (L ++ [x]) = joinLines L ++ '\n' :: x := by
  intro L
  induction L with
  | nil => intro h; exact absurd rfl h
  | cons l ls ih =>
    intro _ x
    cases ls with
    | nil => rfl
    | cons m ms =>
      have ih' := ih (by simp) x
      simp only [List.cons_append] at ih' ⊢
      rw [joinLines_cons_cons, ih']
      simp [joinLines_cons_cons]

/-! ### Lemmas about stripping and blank lines -/

theorem dropWhile_head_not {p : Char → Bool} : ∀ {l : List Char} {c : Char},
    (l.dropWhile p).head? = some c → p c = false := by
  intro l
  induction l with
  | nil => intro c h; simp at h
  | cons x xs ih =>
    intro c h
    rw [List.dropWhile_cons] at h
    by_cases hx : p x
    · rw [if_pos hx] at h
      exact ih h
    · rw [if_neg hx] at h
      simp only [List.head?_cons, Option.some.injEq] at h
      subst h
      exact Bool.eq_false_iff.mpr hx

theorem rstrip_getLast_not_space {s : Content} {c : Char}
    (h : (rstrip s).getLast? = some c) : pyIsSpace c = false := by
  rw [rstrip, List.getLast?_reverse] at h
  exact dropWhile_head_not h

theorem rstrip_getLast_ne_nl (s : Content) :
    (rstrip s).getLast? ≠ some '\n' := by
  intro h
  have := rstrip_getLast_not_space h
  simp [pyIsSpace] at this

theorem rstrip_decomp (s : Content) :
    ∃ w, s = rstrip s ++ w ∧ ∀ c ∈ w, pyIsSpace c = true := by
  have h1 : List.takeWhile pyIsSpace s.reverse ++
      List.dropWhile pyIsSpace s.reverse = s.reverse :=
    List.takeWhile_append_dropWhile pyIsSpace s.reverse
  have h2 : s = (List.takeWhile pyIsSpace s.reverse ++
      List.dropWhile pyIsSpace s.reverse).reverse := by
    rw [h1, List.reverse_reverse]
  rw [List.reverse_append] at h2
  refine ⟨(List.takeWhile pyIsSpace s.reverse).reverse, ?_, ?_⟩
  · rw [rstrip]
    exact h2
  · intro c hc
    exact List.mem_takeWhile_imp (List.mem_reverse.mp hc)

theorem rstrip_eq_self {s : Content}
    (h : ∀ c, s.getLast? = some c → pyIsSpace c = false) : rstrip s = s := by
  cases e : s.reverse with
  | nil =>
    have hs : s = [] := by
      have := congrArg List.reverse e
      simpa using this
    rw [hs]
    rfl
  | cons c t =>
    have hlast : s.getLast? = some c := by
      rw [← List.head?_reverse, e, List.head?_cons]
    have hc : pyIsSpace c = false := h c hlast
    rw [rstrip, e, List.dropWhile_cons, if_neg (by simp [hc])]
    have := congrArg List.reverse e
    simpa using this.symm

theorem rstrip_idem (s : Content) : rstrip (rstrip s) = rstrip s :=
  rstrip_eq_self (fun _ h => rstrip_getLast_not_space h)

theorem rstrip_append_nl (s : Content) : rstrip (s ++ ['\n']) = rstrip s := by
  rw [rstrip, rstrip, List.reverse_append]
  simp [List.dropWhile_cons, pyIsSpace]

theorem lstrip_cons_not_space {c : Char} (h : pyIsSpace c = false)
    (t : Content) : lstrip (c :: t) = c :: t := by
  rw [lstrip, List.dropWhile_cons, if_neg (by simp [h])]

theorem strip_eq_nil_all_space {l : Content} (h : strip l = []) :
    ∀ c ∈ l, pyIsSpace c = true := by
  have h1 : ∀ c ∈ rstrip l, pyIsSpace c = true := by
    rw [strip, lstrip] at h
    exact List.dropWhile_eq_nil_iff.mp h
  obtain ⟨w, hw, hws⟩ := rstrip_decomp l
  intro c hc
  rw [hw] at hc
  rcases List.mem_append.mp hc with h2 | h2
  · exact h1 c h2
  · exact hws c h2

theorem blank_strip_nil {l : Content} (h : isBlank l = true) : strip l = [] := by
  simpa [isBlank] using h

theorem blank_all_space {l : Content} (h : isBlank l = true) :
    ∀ c ∈ l, pyIsSpace c = true :=
  strip_eq_nil_all_space (blank_strip_nil h)

theorem not_isSub_of_all_space (p l : Content) (d : Char) (hd : d ∈ p)
    (hds : pyIsSpace d = false) (hall : ∀ c ∈ l, pyIsSpace c = true) :
    isSub p l = false := by
  cases e : isSub p l
  · rfl
  · have := hall d (mem_of_isSub e d hd)
    rw [hds] at this
    exact absurd this (by simp)

theorem blank_not_marker {l : Content} (h : isBlank l = true) :
    isMarkerLine l = false := by
  have hall := blank_all_space h
  have h1 := not_isSub_of_all_space phrase1 l 'V' (by decide) (by decide) hall
  have h2 := not_isSub_of_all_space phrase2 l 'T' (by decide) (by decide) hall
  rw [isMarkerLine, h1, h2, blank_strip_nil h]
  decide

theorem blank_not_fn {l : Content} (h : isBlank l = true) :
    isVeFnLine l = false := by
  have hall := blank_all_space h
  have h1 := not_isSub_of_all_space (toL "ve()") l 'v' (by decide) (by decide)
    hall
  have h2 := not_isSub_of_all_space (toL "function ve()") l 'f' (by decide)
    (by decide) hall
  rw [isVeFnLine, h1, h2]
  rfl

theorem blank_not_helper {l : Content} (h : isBlank l = true) :
    helperKeep l = false := by
  have hall := blank_all_space h
  have h1 := not_isSub_of_all_space (toL "_ve_auto_activate") l 'v' (by decide)
    (by decide) hall
  have h2 := not_isSub_of_all_space (toL "add-zsh-hook") l 'a' (by decide)
    (by decide) hall
  rw [helperKeep, h1, h2, blank_strip_nil h]
  decide

/-! ### Lemmas about the region scanner -/

/-- Lines that trigger neither the marker branch nor the function branch of
the scanner. -/
def plainLine (l : Content) : Bool := !isMarkerLine l && !isVeFnLine l

theorem plainLine_marker {l : Content} (h : plainLine l = true) :
    isMarkerLine l = false := by
  have := (Bool.and_eq_true _ _).mp h
  simpa using this.1

theorem plainLine_fn {l : Content} (h : plainLine l = true) :
    isVeFnLine l = false := by
  have := (Bool.and_eq_true _ _).mp h
  simpa using this.2

theorem cleanLines_nil (st : ScanSt) : cleanLines st [] = [] := rfl

theorem cleanLines_marker (st : ScanSt) {l : Content} (rest : List Content)
    (h : isMarkerLine l = true) :
    cleanLines st (l :: rest) = cleanLines ⟨true, st.fn, st.brace⟩ rest := by
  simp [cleanLines, h]

theorem cleanLines_fnline (st : ScanSt) {l : Content} (rest : List Content)
    (hm : isMarkerLine l = false) (hf : isVeFnLine l = true) :
    cleanLines st (l :: rest) = cleanLines ⟨st.sec, true, braceDelta l⟩ rest := by
  simp [cleanLines, hm, hf]

theorem cleanLines_infn (s : Bool) (b : Int) {l : Content} (rest : List Content)
    (hm : isMarkerLine l = false) (hf : isVeFnLine l = false) :
    cleanLines ⟨s, true, b⟩ (l :: rest) =
      if b + braceDelta l ≤ 0 then cleanLines ⟨s, false, b + braceDelta l⟩ rest
      else cleanLines ⟨s, true, b + braceDelta l⟩ rest := by
  simp [cleanLines, hm, hf]

theorem cleanLines_sec (b : Int) {l : Content} (rest : List Content)
    (hm : isMarkerLine l = false) (hf : isVeFnLine l = false) :
    cleanLines ⟨true, false, b⟩ (l :: rest) =
      if helperKeep l then cleanLines ⟨true, false, b⟩ rest
      else if isBlank l && sectionEndNext rest then
        l :: cleanLines ⟨false, false, b⟩ rest
      else cleanLines ⟨true, false, b⟩ rest := by
  simp [cleanLines, hm, hf]

theorem cleanLines_keep (b : Int) {l : Content} (rest : List Content)
    (hm : isMarkerLine l = false) (hf : isVeFnLine l = false) :
    cleanLines ⟨false, false, b⟩ (l :: rest) =
      l :: cleanLines ⟨false, false, b⟩ rest := by
  simp [cleanLines, hm, hf]

theorem cleanLines_brace : ∀ (ls : List Content) (s : Bool) (b b' : Int),
    cleanLines ⟨s, false, b⟩ ls = cleanLines ⟨s, false, b'⟩ ls := by
  intro ls
  induction ls with
  | nil => intro s b b'; rfl
  | cons l rest ih =>
    intro s b b'
    cases hm : isMarkerLine l with
    | true =>
      rw [cleanLines_marker _ _ hm, cleanLines_marker _ _ hm]
      exact ih true b b'
    | false =>
      cases hf : isVeFnLine l with
      | true => rw [cleanLines_fnline _ _ hm hf, cleanLines_fnline _ _ hm hf]
      | false =>
        cases s with
        | false =>
          rw [cleanLines_keep _ _ hm hf, cleanLines_keep _ _ hm hf, ih false b b']
        | true =>
          rw [cleanLines_sec _ _ hm hf, cleanLines_sec _ _ hm hf]
          by_cases hk : helperKeep l = true
          · rw [if_pos hk, if_pos hk]
            exact ih true b b'
          · rw [if_neg hk, if_neg hk]
            by_cases he : (isBlank l && sectionEndNext rest) = true
            · rw [if_pos he, if_pos he, ih false b b']
            · rw [if_neg he, if_neg he]
              exact ih true b b'

theorem cleanLines_plain_append : ∀ {als : List Content},
    (∀ l ∈ als, plainLine l = true) → ∀ (b : Int) (rest : List Content),
    cleanLines ⟨false, false, b⟩ (als ++ rest) =
      als ++ cleanLines ⟨false, false, b⟩ rest := by
  intro als
  induction als with
  | nil => intro _ b rest; rfl
  | cons a als' ih =>
    intro h b rest
    have ha := h a (by simp)
    rw [List.cons_append,
      cleanLines_keep _ _ (plainLine_marker ha) (plainLine_fn ha),
      ih (fun x hx => h x (List.mem_cons_of_mem _ hx)) b rest]
    rfl

theorem cleanLines_sec_single (f : Bool) (b : Int) (l : Content) :
    cleanLines ⟨true, f, b⟩ [l] = [] := by
  cases hm : isMarkerLine l with
  | true => rw [cleanLines_marker _ _ hm]; rfl
  | false =>
    cases hf : isVeFnLine l with
    | true => rw [cleanLines_fnline _ _ hm hf]; rfl
    | false =>
      cases f with
      | true =>
        rw [cleanLines_infn _ _ _ hm hf]
        by_cases hb : b + braceDelta l ≤ 0
        · rw [if_pos hb]; rfl
        · rw [if_neg hb]; rfl
      | false =>
        rw [cleanLines_sec _ _ hm hf]
        by_cases hk : helperKeep l = true
        · rw [if_pos hk]; rfl
        · rw [if_neg hk, sectionEndNext, Bool.and_false, if_neg (by simp)]
          rfl

/-- No line of the list is a blank line whose lookahead would end the marker
section: the scanner stays in section mode through the whole list. -/
def noSectionExit : List Content → Bool
  | [] => true
  | l :: rest => !(isBlank l && sectionEndNext rest) && noSectionExit rest

theorem cleanLines_sec_eof : ∀ {ls : List Content}, noSectionExit ls = true →
    ∀ (f : Bool) (b : Int), cleanLines ⟨true, f, b⟩ ls = [] := by
  intro ls
  induction ls with
  | nil => intro _ f b; rfl
  | cons l rest ih =>
    intro h f b
    have h1 : (isBlank l && sectionEndNext rest) = false := by
      have h0 := ((Bool.and_eq_true _ _).mp h).1
      cases e : (isBlank l && sectionEndNext rest)
      · rfl
      · rw [e] at h0
        exact absurd h0 (by decide)
    have h2 : noSectionExit rest = true := ((Bool.and_eq_true _ _).mp h).2
    cases hm : isMarkerLine l with
    | true => rw [cleanLines_marker _ _ hm]; exact ih h2 f b
    | false =>
      cases hf : isVeFnLine l with
      | true => rw [cleanLines_fnline _ _ hm hf]; exact ih h2 true _
      | false =>
        cases f with
        | true =>
          rw [cleanLines_infn _ _ _ hm hf]
          by_cases hb : b + braceDelta l ≤ 0
          · rw [if_pos hb]; exact ih h2 false _
          · rw [if_neg hb]; exact ih h2 true _
        | false =>
          rw [cleanLines_sec _ _ hm hf]
          by_cases hk : helperKeep l = true
          · rw [if_pos hk]; exact ih h2 false b
          · rw [if_neg hk, h1, if_neg (by simp)]
            exact ih h2 false b

/-- Index of the line at which a brace balance started at `b` and adjusted by
every line's own brace counts first reaches `≤ 0`, if any. -/
def fnEnd (b : Int) : List Content → Option Nat
  | [] => none
  | l :: rest =>
    if b + braceDelta l ≤ 0 then some 0
    else (fnEnd (b + braceDelta l) rest).map (· + 1)

theorem cleanLines_fn_scan : ∀ {rest : List Content} (s : Bool) (b : Int),
    (∀ l ∈ rest, plainLine l = true) →
    cleanLines ⟨s, true, b⟩ rest =
      match fnEnd b rest with
      | some k => cleanLines ⟨s, false, 0⟩ (rest.drop (k + 1))
      | none => [] := by
  intro rest
  induction rest with
  | nil => intro s b _; rfl
  | cons l rest' ih =>
    intro s b h
    have hl := h l (by simp)
    rw [cleanLines_infn _ _ _ (plainLine_marker hl) (plainLine_fn hl)]
    by_cases hb : b + braceDelta l ≤ 0
    · rw [if_pos hb]
      have he : fnEnd b (l :: rest') = some 0 := by
        rw [fnEnd, if_pos hb]
      rw [he]
      simpa using cleanLines_brace rest' s (b + braceDelta l) 0
    · rw [if_neg hb, ih s (b + braceDelta l)
        (fun x hx => h x (List.mem_cons_of_mem _ hx))]
      have he : fnEnd b (l :: rest') =
          (fnEnd (b + braceDelta l) rest').map (· + 1) := by
        rw [fnEnd, if_neg hb]
      rw [he]
      cases fnEnd (b + braceDelta l) rest' with
      | none => rfl
      | some k => rfl

/-! ### Claims about the install operations -/

theorem vexInstall_present {c pl : Content}
    (h1 : (isSub pl c || isSub veMarker c) = true) :
    vexInstall c pl = ⟨c, false, true⟩ := by
  rw [vexInstall, if_pos h1]

theorem vexInstall_vefn {c pl : Content}
    (h1 : (isSub pl c || isSub veMarker c) = false)
    (h2 : hasVeFunction c = true) :
    vexInstall c pl = ⟨c, false, true⟩ := by
  rw [vexInstall, if_neg (by simp [h1]), if_pos h2]

theorem vexInstall_append {c pl : Content}
    (h1 : (isSub pl c || isSub veMarker c) = false)
    (h2 : hasVeFunction c = false) :
    vexInstall c pl =
      ⟨rstrip c ++ '\n' :: '\n' :: (veMarker ++ '\n' :: (pl ++ ['\n'])),
        true, true⟩ := by
  rw [vexInstall, if_neg (by simp [h1]), if_neg (by simp [h2])]

/-- C2: the vex.py shell-config install is idempotent: for every config
content and payload, installing a second time with the same payload leaves the
content unchanged, so repeated installs accumulate no duplicate marker lines
or blocks. -/
theorem c2_install_idempotent (c pl : Content) :
    (vexInstall (vexInstall c pl).content pl).content =
      (vexInstall c pl).content := by
  cases e1 : (isSub pl c || isSub veMarker c) with
  | true =>
    rw [vexInstall_present e1]
    show (vexInstall c pl).content = c
    rw [vexInstall_present e1]
  | false =>
    cases e2 : hasVeFunction c with
    | true =>
      rw [vexInstall_vefn e1 e2]
      show (vexInstall c pl).content = c
      rw [vexInstall_vefn e1 e2]
    | false =>
      rw [vexInstall_append e1 e2]
      show (vexInstall
        (rstrip c ++ '\n' :: '\n' :: (veMarker ++ '\n' :: (pl ++ ['\n'])))
        pl).content =
        rstrip c ++ '\n' :: '\n' :: (veMarker ++ '\n' :: (pl ++ ['\n']))
      have hR : isSub veMarker
          (rstrip c ++ '\n' :: '\n' ::
            (veMarker ++ '\n' :: (pl ++ ['\n']))) = true := by
        have h3 := isSub_append_mid veMarker ('\n' :: (pl ++ ['\n']))
          (rstrip c ++ ['\n', '\n'])
        simpa [List.append_assoc] using h3
      rw [vexInstall_present (by rw [hR, Bool.or_true])]

/-- C10: when the config content already contains the marker line or the
exact source line, the vex.py install returns success without writing the
file, leaving the content byte-for-byte unchanged. -/
theorem c10_install_noop (c pl : Content)
    (h : isSub veMarker c = true ∨ isSub pl c = true) :
    vexInstall c pl = ⟨c, false, true⟩ := by
  rw [vexInstall, if_pos]
  rcases h with h | h
  · rw [h, Bool.or_true]
  · rw [h, Bool.true_or]

/-- Witness for C10 at a concrete config content containing the marker. -/
theorem c10_install_noop_witness :
    (isSub veMarker
      (toL "x\n# Virtual Environment Manager (ve) Integration\nsource /cfg/zsh.sh\n") = true ∨
     isSub (toL "source /cfg/zsh.sh")
      (toL "x\n# Virtual Environment Manager (ve) Integration\nsource /cfg/zsh.sh\n") = true) ∧
    vexInstall
      (toL "x\n# Virtual Environment Manager (ve) Integration\nsource /cfg/zsh.sh\n")
      (toL "source /cfg/zsh.sh") =
      ⟨toL "x\n# Virtual Environment Manager (ve) Integration\nsource /cfg/zsh.sh\n",
        false, true⟩ :=
  ⟨Or.inl (by decide), c10_install_noop _ _ (Or.inl (by decide))⟩

/-- C1 counterexample: in vex.py, installing payload `X` on empty content and
then installing payload `Y` on the result is a no-op for the second install:
the single marker block keeps payload `X`, it does not become `Y`. -/
theorem c1_counterexample :
    (vexInstall (vexInstall [] (toL "X")).content (toL "Y")).content =
      (vexInstall [] (toL "X")).content ∧
    splitlines (vexInstall (vexInstall [] (toL "X")).content (toL "Y")).content =
      [[], [], veMarker, toL "X"] ∧
    toL "X" ≠ toL "Y" :=
  ⟨by decide, by decide, by decide⟩

/-- C1 (amended): starting from empty config content, installing payload X
and then payload Y yields exactly one marker block — but in vex.py the second
install is skipped and the block's payload stays X, while the standalone
installer's confirmed reinstall path replaces the block, so there the payload
becomes Y. -/
theorem c1_amended :
    splitlines (vexInstall (vexInstall [] (toL "source /cfg/a.sh")).content
        (toL "source /cfg/b.sh")).content =
      [[], [], veMarker, toL "source /cfg/a.sh"] ∧
    splitlines (installerInstall
        (installerInstall [] (toL "source /cfg/a.sh") (toL "/cfg/a.sh"))
        (toL "source /cfg/b.sh") (toL "/cfg/b.sh")) =
      [[], [], veMarker, toL "source /cfg/b.sh"] :=
  ⟨by decide, by decide⟩

/-! ### Claims about the region detector -/

/-- C5 counterexample: a subsequent line that itself matches the
function-definition pattern does not adjust the brace balance, it resets it:
here the balance computed by per-line adjustment never reaches 0, yet the
detector does not extend the region to end-of-file — the line `tail`
survives. -/
theorem c5_counterexample :
    isVeFnLine (toL "ve() \x7b\x7b") = true ∧
    isMarkerLine (toL "ve() \x7b\x7b") = false ∧
    fnEnd (braceDelta (toL "ve() \x7b\x7b"))
      [toL "ve()", toL "\x7d", toL "tail"] = none ∧
    cleanLines ⟨false, false, 0⟩
      [toL "ve() \x7b\x7b", toL "ve()", toL "\x7d", toL "tail"] =
      [toL "tail"] :=
  ⟨by decide, by decide, by decide, by decide⟩

/-- C5 (amended): a non-comment function-definition line that does not match
the marker heuristics begins function-body mode with balance `count of
opening minus closing braces of that line`; every subsequent line matching
neither the marker heuristics nor the function-definition pattern adjusts the
balance by its own brace counts; the region ends at the line where the
balance reaches `≤ 0`, and if it never does the region extends to
end-of-file, without raising an error. -/
theorem c5_function_region_amended (s : Bool) (b : Int) (l : Content)
    (rest : List Content) (hm : isMarkerLine l = false)
    (hf : isVeFnLine l = true) (hr : ∀ x ∈ rest, plainLine x = true) :
    cleanLines ⟨s, false, b⟩ (l :: rest) =
      match fnEnd (braceDelta l) rest with
      | some k => cleanLines ⟨s, false, 0⟩ (rest.drop (k + 1))
      | none => [] := by
  rw [cleanLines_fnline _ _ hm hf]
  exact cleanLines_fn_scan s (braceDelta l) hr

/-- Witness for the amended C5 at a concrete three-line function body. -/
theorem c5_function_region_amended_witness :
    (isMarkerLine (toL "ve() \x7b") = false ∧
     isVeFnLine (toL "ve() \x7b") = true ∧
     (∀ x ∈ [toL "deactivate", toL "\x7d", toL "tail"], plainLine x = true)) ∧
    cleanLines ⟨false, false, 0⟩
      (toL "ve() \x7b" :: [toL "deactivate", toL "\x7d", toL "tail"]) =
      match fnEnd (braceDelta (toL "ve() \x7b"))
        [toL "deactivate", toL "\x7d", toL "tail"] with
      | some k =>
        cleanLines ⟨false, false, 0⟩
          ([toL "deactivate", toL "\x7d", toL "tail"].drop (k + 1))
      | none => [] :=
  ⟨⟨by decide, by decide, by decide⟩,
    c5_function_region_amended false 0 _ _ (by decide) (by decide) (by decide)⟩

/-- C6: in marker mode, a blank line ends the region exactly when the
lookahead condition on the next line holds (then the blank line itself is
kept), and otherwise the blank line is still inside the region; moreover a
marker region with no terminating blank line runs to end-of-file. -/
theorem c6_marker_blank_end (b : Int) (l : Content) (rest : List Content)
    (f : Bool) (ls : List Content) (hb : isBlank l = true)
    (hx : noSectionExit ls = true) :
    (cleanLines ⟨true, false, b⟩ (l :: rest) =
      if sectionEndNext rest then l :: cleanLines ⟨false, false, b⟩ rest
      else cleanLines ⟨true, false, b⟩ rest) ∧
    cleanLines ⟨true, f, b⟩ ls = [] := by
  constructor
  · rw [cleanLines_sec _ _ (blank_not_marker hb) (blank_not_fn hb),
      if_neg (by simp [blank_not_helper hb]), hb, Bool.true_and]
  · exact cleanLines_sec_eof hx f b

/-- Witness for C6 at a concrete blank line whose lookahead ends the region,
and a concrete markerless remainder that runs to end-of-file. -/
theorem c6_marker_blank_end_witness :
    (isBlank (toL " ") = true ∧
     noSectionExit [toL "alpha", toL "# c"] = true) ∧
    (cleanLines ⟨true, false, 0⟩ (toL " " :: [toL "next"]) =
      if sectionEndNext [toL "next"] then
        toL " " :: cleanLines ⟨false, false, 0⟩ [toL "next"]
      else cleanLines ⟨true, false, 0⟩ [toL "next"]) ∧
    cleanLines ⟨true, false, 0⟩ [toL "alpha", toL "# c"] = [] :=
  ⟨⟨by decide, by decide⟩,
    c6_marker_blank_end 0 (toL " ") [toL "next"] false [toL "alpha", toL "# c"]
      (by decide) (by decide)⟩

/-! ### Claim C3: the uninstall/install round trip -/

/-- C3 counterexample: a user line that merely mentions the detection phrase
is unrelated to the installed block, yet the round trip loses it: after
installing on this one-line content, `clean_zshrc` removes the user's own
line together with the block, so the original content is not restored even up
to trailing whitespace. -/
theorem c3_counterexample :
    rstrip (cleanContent ((vexInstall
      (toL "# my Virtual Environment Manager notes")
      (toL "source /cfg/zsh.sh")).content)) = [] ∧
    rstrip (toL "# my Virtual Environment Manager notes") ≠ [] :=
  ⟨by decide, by decide⟩

/-- C3 (amended): the round trip `uninstall (install C)` restores `C` up to
trailing-whitespace normalisation provided no part of `C` triggers the
detector heuristics: the source line and the marker do not occur in `C`, no
`ve` function pattern occurs in `C`, and no line of the trimmed content
matches the marker or function-definition heuristics. -/
theorem c3_roundtrip_amended (C src : Content)
    (hnl : '\n' ∉ src)
    (h1 : isSub src C = false) (h2 : isSub veMarker C = false)
    (h3 : hasVeFunction C = false)
    (h4 : ∀ l ∈ splitlines (rstrip C), plainLine l = true) :
    rstrip (cleanContent (vexInstall C src).content) = rstrip C := by
  rw [vexInstall_append (by rw [h1, h2]; rfl) h3]
  show rstrip (cleanContent
    (rstrip C ++ '\n' :: '\n' :: (veMarker ++ '\n' :: (src ++ ['\n'])))) =
    rstrip C
  have hmark_nl : '\n' ∉ veMarker := by decide
  have hsplit_src : splitlines (src ++ ['\n']) = [src] := by
    have := splitlines_append hnl []
    simpa using this
  have hsplit_tail :
      splitlines ('\n' :: (veMarker ++ '\n' :: (src ++ ['\n']))) =
        [[], veMarker, src] := by
    rw [splitlines_cons_nl, splitlines_append hmark_nl, hsplit_src]
  by_cases hA : rstrip C = []
  · rw [hA]
    rw [cleanContent, List.nil_append, splitlines_cons_nl, hsplit_tail]
    have hscan : cleanLines initSt [[], [], veMarker, src] = [[], []] := by
      rw [initSt,
        cleanLines_keep _ _ (by decide) (by decide),
        cleanLines_keep _ _ (by decide) (by decide),
        cleanLines_marker _ _ (by decide)]
      show [] :: ([] :: cleanLines ⟨true, false, 0⟩ [src]) = [[], []]
      rw [cleanLines_sec_single]
    rw [hscan]
    decide
  · have hlast : (rstrip C).getLast? ≠ some '\n' := rstrip_getLast_ne_nl C
    rw [cleanContent, splitlines_append' hA hlast, hsplit_tail]
    have hscan : cleanLines initSt (splitlines (rstrip C) ++ [[], veMarker, src]) =
        splitlines (rstrip C) ++ [[]] := by
      rw [initSt, cleanLines_plain_append h4 0 [[], veMarker, src]]
      have : cleanLines ⟨false, false, 0⟩ [[], veMarker, src] = [[]] := by
        rw [cleanLines_keep _ _ (by decide) (by decide),
          cleanLines_marker _ _ (by decide)]
        show [] :: cleanLines ⟨true, false, 0⟩ [src] = [[]]
        rw [cleanLines_sec_single]
      rw [this]
    rw [hscan, joinLines_concat (splitlines_ne_nil hA) [],
      joinLines_splitlines hlast]
    show rstrip (rstrip C ++ ['\n']) = rstrip C
    rw [rstrip_append_nl, rstrip_idem]

/-- Witness for the amended C3 at a concrete two-line config content. -/
theorem c3_roundtrip_amended_witness :
    ('\n' ∉ toL "source /cfg/zsh.sh" ∧
     isSub (toL "source /cfg/zsh.sh") (toL "export PATH=/bin\ncd /tmp") = false ∧
     isSub veMarker (toL "export PATH=/bin\ncd /tmp") = false ∧
     hasVeFunction (toL "export PATH=/bin\ncd /tmp") = false ∧
     (∀ l ∈ splitlines (rstrip (toL "export PATH=/bin\ncd /tmp")),
       plainLine l = true)) ∧
    rstrip (cleanContent (vexInstall (toL "export PATH=/bin\ncd /tmp")
      (toL "source /cfg/zsh.sh")).content) =
      rstrip (toL "export PATH=/bin\ncd /tmp") :=
  ⟨⟨by decide, by decide, by decide, by decide, by decide⟩,
    c3_roundtrip_amended _ _ (by decide) (by decide) (by decide) (by decide)
      (by decide)⟩

/-! ### Claim C7: the tracking store upsert -/

/-- Characters matched by the `_is_valid_name` pattern `[a-zA-Z0-9_-]`. -/
def isNameChar (c : Char) : Bool := c.isAlphanum || c == '_' || c == '-'

/-- The `_is_valid_name` allow-list `^[a-zA-Z0-9_-]+$` of vex.py. -/
def validName (n : Content) : Bool := !n.isEmpty && n.all isNameChar

/-- A line that the lookup scan of `_get_env_from_tracking` reads as an entry
for `name`. -/
def entryFor (name : Content) (l : Content) : Bool :=
  match splitOnce ' ' (strip l) with
  | some q => q.1 == name
  | none => false

/-- Stores whose lines carry no leading whitespace; every store the manager
itself writes has this shape. -/
def noLeadWS (S : Content) : Bool :=
  (splitlines S).all (fun l => lstrip l == l)

theorem pyIsSpace_cases {c : Char} (h : pyIsSpace c = true) :
    c = ' ' ∨ c = '\t' ∨ c = '\n' ∨ c = '\r' ∨ c = '\x0b' ∨ c = '\x0c' := by
  simp only [pyIsSpace, Bool.or_eq_true, beq_iff_eq] at h
  tauto

theorem isNameChar_not_space {c : Char} (h : isNameChar c = true) :
    pyIsSpace c = false := by
  cases e : pyIsSpace c
  · rfl
  · rcases pyIsSpace_cases e with rfl | rfl | rfl | rfl | rfl | rfl <;>
      revert h <;> decide

theorem validName_ne_nil {n : Content} (h : validName n = true) : n ≠ [] := by
  intro he
  subst he
  revert h
  decide

theorem validName_mem {n : Content} (h : validName n = true) :
    ∀ c ∈ n, isNameChar c = true := by
  have := (Bool.and_eq_true _ _).mp h
  exact List.all_eq_true.mp this.2

theorem validName_no_space {n : Content} (h : validName n = true) :
    ' ' ∉ n := by
  intro hm
  have h2 := isNameChar_not_space (validName_mem h ' ' hm)
  revert h2
  decide

theorem validName_no_nl {n : Content} (h : validName n = true) : '\n' ∉ n := by
  intro hm
  have h2 := validName_mem h '\n' hm
  revert h2
  decide

theorem dropWhile_fix_head {p : Char → Bool} {x : Char} {xs : List Char}
    (h : List.dropWhile p (x :: xs) = x :: xs) : p x = false := by
  cases e : p x
  · rfl
  · rw [List.dropWhile_cons, if_pos (by simp [e])] at h
    have h1 : (List.dropWhile p xs).length ≤ xs.length :=
      (List.dropWhile_sublist p).length_le
    rw [h] at h1
    simp at h1

theorem strip_prefix_of_noLead {l : Content} (h : lstrip l = l) :
    ∃ w, l = strip l ++ w := by
  obtain ⟨w, hw, _⟩ := rstrip_decomp l
  cases e : rstrip l with
  | nil =>
    refine ⟨l, ?_⟩
    rw [strip, e]
    rfl
  | cons c t =>
    have hc : pyIsSpace c = false := by
      rw [e] at hw
      have hfix : List.dropWhile pyIsSpace (c :: (t ++ w)) = c :: (t ++ w) := by
        have : lstrip (c :: (t ++ w)) = c :: (t ++ w) := by
          rw [← List.cons_append, ← hw]
          exact h
        simpa [lstrip] using this
      exact dropWhile_fix_head hfix
    rw [strip, e, lstrip_cons_not_space hc]
    rw [e] at hw
    exact ⟨w, hw⟩

theorem entryFor_false_of_not_prefix {name l : Content} (hlead : lstrip l = l)
    (hpre : ((name ++ [' ']).isPrefixOf l) = false) :
    entryFor name l = false := by
  rw [entryFor]
  cases e : splitOnce ' ' (strip l) with
  | none => rfl
  | some q =>
    obtain ⟨a, b⟩ := q
    cases ean : a == name
    · exact ean
    · exfalso
      have ha : a = name := by simpa using ean
      subst ha
      obtain ⟨h1, _⟩ := splitOnce_eq_some e
      obtain ⟨w, hw⟩ := strip_prefix_of_noLead hlead
      have h5 : ((a ++ [' ']).isPrefixOf l) = true := by
        rw [hw, h1]
        have h6 : (a ++ ' ' :: b) ++ w = (a ++ [' ']) ++ (b ++ w) := by simp
        rw [h6]
        exact isPrefixOf_self_append _ _
      rw [h5] at hpre
      exact Bool.noConfusion hpre

theorem strip_entry {n v : Content} (hn : validName n = true)
    (hv : rstrip v = v) (hvne : v ≠ []) :
    strip (n ++ ' ' :: v) = n ++ ' ' :: v := by
  have hr : rstrip (n ++ ' ' :: v) = n ++ ' ' :: v := by
    apply rstrip_eq_self
    intro c hc
    rw [List.getLast?_append] at hc
    obtain ⟨d, hd⟩ : ∃ d, v.getLast? = some d := by
      cases e2 : v.getLast? with
      | none => exact absurd (List.getLast?_eq_none_iff.mp e2) hvne
      | some d => exact ⟨d, rfl⟩
    rw [show (' ' :: v).getLast? = v.getLast? from by
        cases v with
        | nil => exact absurd rfl hvne
        | cons y ys => simp, hd] at hc
    simp only [Option.or_some, Option.some.injEq] at hc
    subst hc
    exact rstrip_getLast_not_space (by rw [hv]; exact hd)
  have hl : lstrip (n ++ ' ' :: v) = n ++ ' ' :: v := by
    cases hnn : n with
    | nil => exact absurd hnn (validName_ne_nil hn)
    | cons c0 ns =>
      rw [List.cons_append]
      exact lstrip_cons_not_space
        (isNameChar_not_space (validName_mem hn c0 (by rw [hnn]; simp))) _
  rw [strip, hr, hl]

theorem trackingLookupLines_append {name : Content} : ∀ {L1 : List Content},
    (∀ l ∈ L1, entryFor name l = false) → ∀ L2,
    trackingLookupLines name (L1 ++ L2) = trackingLookupLines name L2 := by
  intro L1
  induction L1 with
  | nil => intro _ L2; rfl
  | cons l L1' ih =>
    intro h L2
    have hl := h l (by simp)
    rw [entryFor] at hl
    rw [List.cons_append, trackingLookupLines]
    cases e : splitOnce ' ' (strip l) with
    | none => exact ih (fun x hx => h x (List.mem_cons_of_mem _ hx)) L2
    | some q =>
      rw [e] at hl
      obtain ⟨a, b⟩ := q
      have hl' : (a == name) = false := hl
      show (if (a == name) = true then some b
        else trackingLookupLines name (L1' ++ L2)) =
        trackingLookupLines name L2
      rw [if_neg (by simp [hl'])]
      exact ih (fun x hx => h x (List.mem_cons_of_mem _ hx)) L2

theorem splitlines_rewrite {F : List Content} {entry : Content}
    (hF : ∀ l ∈ F, '\n' ∉ l) (he : '\n' ∉ entry) :
    splitlines (joinLines (F ++ [entry]) ++ ['\n']) = F ++ [entry] := by
  apply splitlines_joinLines (by simp)
  intro l hl
  rcases List.mem_append.mp hl with h | h
  · exact hF l h
  · have he2 : l = entry := by simpa using h
    subst he2
    exact he

theorem trackingLookup_entry {n v : Content} (hn : validName n = true)
    (hv : rstrip v = v) (hvne : v ≠ []) :
    trackingLookupLines n [n ++ ' ' :: v] = some v := by
  rw [trackingLookupLines, strip_entry hn hv hvne,
    splitOnce_append (validName_no_space hn) v]
  show (if (n == n) = true then some v else trackingLookupLines n []) = some v
  rw [if_pos (by simp)]

theorem entryFor_entry {n v : Content} (hn : validName n = true)
    (hv : rstrip v = v) (hvne : v ≠ []) :
    entryFor n (n ++ ' ' :: v) = true := by
  rw [entryFor, strip_entry hn hv hvne,
    splitOnce_append (validName_no_space hn) v]
  show (n == n) = true
  simp

/-- C7 counterexample: a hand-written store line with a leading space is not
removed by the upsert filter (which checks the raw line) but is found first
by the lookup (which strips each line): after upserting `e -> new` into the
store `" e old\n"`, the lookup still answers `old`. -/
theorem c7_counterexample :
    trackingLookup (trackingUpsert (toL " e old\n") (toL "e") (toL "new"))
      (toL "e") = some (toL "old") ∧
    toL "old" ≠ toL "new" :=
  ⟨by decide, by decide⟩

/-- C7 (amended): for a store whose lines have no leading whitespace, a name
matching the manager's `[a-zA-Z0-9_-]+` pattern and a non-empty value without
trailing whitespace or newline, the upsert filters out every entry line for
the name and appends one new entry as the last line, non-matching lines keep
their relative order, the lookup of the name then answers the new value, and
exactly one entry for that name remains (so a second identical upsert also
leaves exactly one). -/
theorem c7_upsert_amended (S n v : Content)
    (hS : noLeadWS S = true) (hn : validName n = true)
    (hv : rstrip v = v) (hvne : v ≠ []) (hvnl : '\n' ∉ v) :
    splitlines (trackingUpsert S n v) =
      (splitlines S).filter (fun l => !((n ++ [' ']).isPrefixOf l)) ++
        [n ++ ' ' :: v] ∧
    trackingLookup (trackingUpsert S n v) n = some v ∧
    (splitlines (trackingUpsert S n v)).countP (entryFor n) = 1 ∧
    (splitlines (trackingUpsert S n v)).getLast? = some (n ++ ' ' :: v) := by
  have hennl : '\n' ∉ n ++ ' ' :: v := by
    intro hm
    rcases List.mem_append.mp hm with h | h
    · exact validName_no_nl hn h
    · rcases List.mem_cons.mp h with h2 | h2
      · exact absurd h2 (by decide)
      · exact hvnl h2
  have ha : splitlines (trackingUpsert S n v) =
      (splitlines S).filter (fun l => !((n ++ [' ']).isPrefixOf l)) ++
        [n ++ ' ' :: v] := by
    rw [trackingUpsert]
    exact splitlines_rewrite
      (fun l hl => mem_splitlines_nlfree (List.mem_filter.mp hl).1) hennl
  have hmiss : ∀ l ∈ (splitlines S).filter
      (fun l => !((n ++ [' ']).isPrefixOf l)), entryFor n l = false := by
    intro l hl
    have h1 := List.mem_filter.mp hl
    have hlead : lstrip l = l := by
      have h2 := List.all_eq_true.mp hS l h1.1
      simpa using h2
    have hpre : ((n ++ [' ']).isPrefixOf l) = false := by
      have h2 := h1.2
      simpa using h2
    exact entryFor_false_of_not_prefix hlead hpre
  refine ⟨ha, ?_, ?_, ?_⟩
  · rw [trackingLookup, ha, trackingLookupLines_append hmiss]
    exact trackingLookup_entry hn hv hvne
  · rw [ha, List.countP_append]
    have h0 : ((splitlines S).filter
        (fun l => !((n ++ [' ']).isPrefixOf l))).countP (entryFor n) = 0 :=
      List.countP_eq_zero.mpr (fun a hA => by simp [hmiss a hA])
    rw [h0]
    simp [List.countP_cons, entryFor_entry hn hv hvne]
  · rw [ha]
    exact List.getLast?_concat _

/-- Witness for the amended C7 at a concrete two-entry store. -/
theorem c7_upsert_amended_witness :
    (noLeadWS (toL "a /p1\nb /p2\n") = true ∧ validName (toL "e") = true ∧
     rstrip (toL "/p3") = toL "/p3" ∧ toL "/p3" ≠ [] ∧ '\n' ∉ toL "/p3") ∧
    (splitlines (trackingUpsert (toL "a /p1\nb /p2\n") (toL "e") (toL "/p3")) =
      (splitlines (toL "a /p1\nb /p2\n")).filter
        (fun l => !((toL "e" ++ [' ']).isPrefixOf l)) ++
        [toL "e" ++ ' ' :: toL "/p3"] ∧
     trackingLookup
       (trackingUpsert (toL "a /p1\nb /p2\n") (toL "e") (toL "/p3"))
       (toL "e") = some (toL "/p3") ∧
     (splitlines (trackingUpsert (toL "a /p1\nb /p2\n") (toL "e")
       (toL "/p3"))).countP (entryFor (toL "e")) = 1 ∧
     (splitlines (trackingUpsert (toL "a /p1\nb /p2\n") (toL "e")
       (toL "/p3"))).getLast? = some (toL "e" ++ ' ' :: toL "/p3")) :=
  ⟨⟨by decide, by decide, by decide, by decide, by decide⟩,
    c7_upsert_amended _ _ _ (by decide) (by decide) (by decide) (by decide)
      (by decide)⟩

/-! ### Claim C8: the directory-association store -/

theorem dirUpsert_splitlines (S : Content) {dir env : Content}
    (hdnl : '\n' ∉ dir) (henl : '\n' ∉ env) :
    splitlines (dirUpsertContent S dir env) =
      (splitlines S).filter (fun l => !((dir ++ [':']).isPrefixOf l)) ++
        [dir ++ ':' :: env] := by
  rw [dirUpsertContent]
  apply splitlines_rewrite
    (fun l hl => mem_splitlines_nlfree (List.mem_filter.mp hl).1)
  intro hm
  rcases List.mem_append.mp hm with h | h
  · exact hdnl h
  · rcases List.mem_cons.mp h with h2 | h2
    · exact absurd h2 (by decide)
    · exact henl h2

theorem autoScan_append {tracking : Content} {existsFS : Content → Bool}
    {dir : Content} : ∀ {L1 : List Content},
    (∀ l ∈ L1, ((dir ++ [':']).isPrefixOf l) = false) → ∀ L2,
    autoScan tracking existsFS dir (L1 ++ L2) =
      autoScan tracking existsFS dir L2 := by
  intro L1
  induction L1 with
  | nil => intro _ L2; rfl
  | cons l L1' ih =>
    intro h L2
    rw [List.cons_append, autoScan]
    cases e : splitOnce ':' l with
    | none => exact ih (fun x hx => h x (List.mem_cons_of_mem _ hx)) L2
    | some q =>
      obtain ⟨d, ev⟩ := q
      dsimp only
      cases ed : d == dir with
      | false =>
        rw [if_neg (by simp [ed])]
        exact ih (fun x hx => h x (List.mem_cons_of_mem _ hx)) L2
      | true =>
        exfalso
        have hd : d = dir := by simpa using ed
        subst hd
        obtain ⟨h1, _⟩ := splitOnce_eq_some e
        have h5 : ((d ++ [':']).isPrefixOf l) = true := by
          rw [h1]
          have e2 : d ++ ':' :: ev = (d ++ [':']) ++ ev := by simp
          rw [e2]
          exact isPrefixOf_self_append _ _
        rw [h l (by simp)] at h5
        exact Bool.noConfusion h5

theorem autoScan_entry {tracking : Content} {existsFS : Content → Bool}
    {dir env p : Content} (hcol : ':' ∉ dir)
    (hT : trackingLookup tracking env = some p) (hp : p ≠ [])
    (hex : existsFS p = true) :
    autoScan tracking existsFS dir [dir ++ ':' :: env] = some env := by
  rw [autoScan, splitOnce_append hcol env]
  dsimp only
  rw [if_pos (by simp), hT]
  dsimp only
  rw [if_pos]
  have hpe : p.isEmpty = false := by
    cases p with
    | nil => exact absurd rfl hp
    | cons x xs => rfl
  rw [hpe, hex]
  rfl

theorem dirUpsert_props (S : Content) {dir env : Content} (hdnl : '\n' ∉ dir)
    (henl : '\n' ∉ env) :
    (splitlines (dirUpsertContent S dir env)).countP
      (fun l => (dir ++ [':']).isPrefixOf l) = 1 ∧
    (splitlines (dirUpsertContent S dir env)).getLast? =
      some (dir ++ ':' :: env) := by
  have ha := dirUpsert_splitlines S hdnl henl
  constructor
  · rw [ha, List.countP_append]
    have h0 : ((splitlines S).filter
        (fun l => !((dir ++ [':']).isPrefixOf l))).countP
        (fun l => (dir ++ [':']).isPrefixOf l) = 0 := by
      apply List.countP_eq_zero.mpr
      intro a hA
      have h2 := (List.mem_filter.mp hA).2
      simp only [Bool.not_eq_true']  at h2
      simp [h2]
    rw [h0]
    have hone : ((dir ++ [':']).isPrefixOf (dir ++ ':' :: env)) = true := by
      have e2 : dir ++ ':' :: env = (dir ++ [':']) ++ env := by simp
      rw [e2]
      exact isPrefixOf_self_append _ _
    simp [List.countP_cons, hone]
  · rw [ha]
    exact List.getLast?_concat _

/-- C8: directory-association upsert is last-write-wins: after upserting
`/x -> a` and then `/x -> b`, the auto-activation lookup of `/x` answers `b`
(given that `b` has a verifiable tracking entry), exactly one entry for `/x`
exists in each of the two parallel stores, and both stores end with the same
new entry, which `_update_directory_mapping` writes to both together. -/
theorem c8_dir_last_write_wins (D D2 T p : Content) (existsFS : Content → Bool)
    (hT : trackingLookup T (toL "b") = some p) (hp : p ≠ [])
    (hex : existsFS p = true) :
    dirUpsertBoth (dirUpsertBoth D D2 (toL "/x") (toL "a")).1
        (dirUpsertBoth D D2 (toL "/x") (toL "a")).2 (toL "/x") (toL "b") =
      (dirUpsertContent (dirUpsertContent D (toL "/x") (toL "a"))
         (toL "/x") (toL "b"),
       dirUpsertContent (dirUpsertContent D2 (toL "/x") (toL "a"))
         (toL "/x") (toL "b")) ∧
    getAutoActivateEnv (dirUpsertContent (dirUpsertContent D (toL "/x")
        (toL "a")) (toL "/x") (toL "b")) T existsFS (toL "/x") =
      some (toL "b") ∧
    (splitlines (dirUpsertContent (dirUpsertContent D (toL "/x") (toL "a"))
      (toL "/x") (toL "b"))).countP
      (fun l => (toL "/x" ++ [':']).isPrefixOf l) = 1 ∧
    (splitlines (dirUpsertContent (dirUpsertContent D2 (toL "/x") (toL "a"))
      (toL "/x") (toL "b"))).countP
      (fun l => (toL "/x" ++ [':']).isPrefixOf l) = 1 ∧
    (splitlines (dirUpsertContent (dirUpsertContent D (toL "/x") (toL "a"))
      (toL "/x") (toL "b"))).getLast? = some (toL "/x" ++ ':' :: toL "b") ∧
    (splitlines (dirUpsertContent (dirUpsertContent D2 (toL "/x") (toL "a"))
      (toL "/x") (toL "b"))).getLast? = some (toL "/x" ++ ':' :: toL "b") := by
  have hdnl : '\n' ∉ toL "/x" := by decide
  have hbnl : '\n' ∉ toL "b" := by decide
  have hcol : ':' ∉ toL "/x" := by decide
  refine ⟨rfl, ?_, (dirUpsert_props _ hdnl hbnl).1,
    (dirUpsert_props _ hdnl hbnl).1, (dirUpsert_props _ hdnl hbnl).2,
    (dirUpsert_props _ hdnl hbnl).2⟩
  rw [getAutoActivateEnv, dirUpsert_splitlines _ hdnl hbnl,
    autoScan_append (fun l hl => by
      have h2 := (List.mem_filter.mp hl).2
      simpa using h2) [toL "/x" ++ ':' :: toL "b"]]
  exact autoScan_entry hcol hT hp hex

/-- Witness for C8 at concrete empty initial stores and a concrete tracking
store with an existing path for environment `b`. -/
theorem c8_dir_last_write_wins_witness :
    (trackingLookup (toL "b /v/a\n") (toL "b") = some (toL "/v/a") ∧
     toL "/v/a" ≠ [] ∧
     (fun q => q == toL "/v/a") (toL "/v/a") = true) ∧
    (dirUpsertBoth (dirUpsertBoth [] [] (toL "/x") (toL "a")).1
        (dirUpsertBoth [] [] (toL "/x") (toL "a")).2 (toL "/x") (toL "b") =
      (dirUpsertContent (dirUpsertContent [] (toL "/x") (toL "a"))
         (toL "/x") (toL "b"),
       dirUpsertContent (dirUpsertContent [] (toL "/x") (toL "a"))
         (toL "/x") (toL "b")) ∧
     getAutoActivateEnv (dirUpsertContent (dirUpsertContent [] (toL "/x")
        (toL "a")) (toL "/x") (toL "b")) (toL "b /v/a\n")
        (fun q => q == toL "/v/a") (toL "/x") = some (toL "b") ∧
     (splitlines (dirUpsertContent (dirUpsertContent [] (toL "/x") (toL "a"))
       (toL "/x") (toL "b"))).countP
       (fun l => (toL "/x" ++ [':']).isPrefixOf l) = 1 ∧
     (splitlines (dirUpsertContent (dirUpsertContent [] (toL "/x") (toL "a"))
       (toL "/x") (toL "b"))).countP
       (fun l => (toL "/x" ++ [':']).isPrefixOf l) = 1 ∧
     (splitlines (dirUpsertContent (dirUpsertContent [] (toL "/x") (toL "a"))
       (toL "/x") (toL "b"))).getLast? = some (toL "/x" ++ ':' :: toL "b") ∧
     (splitlines (dirUpsertContent (dirUpsertContent [] (toL "/x") (toL "a"))
       (toL "/x") (toL "b"))).getLast? = some (toL "/x" ++ ':' :: toL "b")) :=
  ⟨⟨by decide, by decide, by decide⟩,
    c8_dir_last_write_wins [] [] (toL "b /v/a\n") (toL "/v/a")
      (fun q => q == toL "/v/a") (by decide) (by decide) (by decide)⟩

/-! ### Claim C9: lazy pruning on listing -/

/-- C9: listing a tracking store holding one well-formed entry whose path
does not exist and one whose path exists rewrites the store with exactly the
dangling entry removed, keeps the surviving entry verbatim, and reports a
pruned count of 1 (in either order of the two lines). -/
theorem c9_prune_listing (S a b n1 p1 n2 p2 : Content)
    (existsFS : Content → Bool)
    (hsplit : splitlines S = [a, b] ∨ splitlines S = [b, a])
    (ha : splitOnce ' ' (strip a) = some (n1, p1)) (hp1 : existsFS p1 = false)
    (hb : splitOnce ' ' (strip b) = some (n2, p2)) (hp2 : existsFS p2 = true) :
    listVenvs S existsFS = (b ++ ['\n'], 1) := by
  have hfa : (match splitOnce ' ' (strip a) with
      | some q => existsFS q.2
      | none => false) = false := by
    rw [ha]
    exact hp1
  have hfb : (match splitOnce ' ' (strip b) with
      | some q => existsFS q.2
      | none => false) = true := by
    rw [hb]
    exact hp2
  rw [listVenvs]
  rcases hsplit with h | h <;>
    rw [h] <;>
    simp only [List.filter_cons, List.filter_nil, hfa, hfb, if_true, if_false,
      Bool.false_eq_true, List.length_cons, List.length_nil] <;>
    norm_num <;>
    rfl

/-- Witness for C9 at a concrete store with one dangling and one live
entry. -/
theorem c9_prune_listing_witness :
    ((splitlines (toL "a /dead\nb /ok\n") = [toL "a /dead", toL "b /ok"] ∨
      splitlines (toL "a /dead\nb /ok\n") = [toL "b /ok", toL "a /dead"]) ∧
     splitOnce ' ' (strip (toL "a /dead")) = some (toL "a", toL "/dead") ∧
     (fun q => q == toL "/ok") (toL "/dead") = false ∧
     splitOnce ' ' (strip (toL "b /ok")) = some (toL "b", toL "/ok") ∧
     (fun q => q == toL "/ok") (toL "/ok") = true) ∧
    listVenvs (toL "a /dead\nb /ok\n") (fun q => q == toL "/ok") =
      (toL "b /ok" ++ ['\n'], 1) :=
  ⟨⟨Or.inl (by decide), by decide, by decide, by decide, by decide⟩,
    c9_prune_listing (toL "a /dead\nb /ok\n") (toL "a /dead") (toL "b /ok")
      (toL "a") (toL "/dead") (toL "b") (toL "/ok") (fun q => q == toL "/ok")
      (Or.inl (by decide)) (by decide) (by decide) (by decide) (by decide)⟩

/-! ### Claim C4: safety of the deletion flow -/

/-- C4 counterexample: when the environment resolving to the home directory
is also the currently active one, `delete_venv` refuses with the
active-venv error, not the unsafe-path error (though still without
mutation). -/
theorem c4_counterexample :
    (pathComponents (toL "/home/u/bin/activate")).dropLast.dropLast =
      [toL "home", toL "u"] ∧
    deleteVenv [toL "home", toL "u"] (some (toL "/home/u"))
      (fun _ => true) (fun _ => true) true (toL "e /home/u/bin/activate\n")
      (toL "e") =
      ⟨some .activeVenv, toL "e /home/u/bin/activate\n", []⟩ ∧
    DeleteErr.activeVenv ≠ DeleteErr.unsafePath :=
  ⟨by decide, by decide, by decide⟩

/-- C4 (amended): when the tracked activate path of a named environment
resolves (two parents up) to the filesystem root or the home directory and
the environment is not the currently active one, `delete_venv` fails with the
unsafe-path refusal and performs no filesystem mutation: no directory is
removed and the tracking store is untouched.  (If it is the active one, the
active-venv refusal fires first, likewise without mutation.) -/
theorem c4_delete_unsafe_amended (home : List Content)
    (currentVenv : Option Content) (isDir : List Content → Bool)
    (existsFS : Content → Bool) (confirmed : Bool) (tracking name ap : Content)
    (hname : name ≠ [])
    (hlook : trackingLookup tracking name = some ap)
    (hsafe : (pathComponents ap).dropLast.dropLast = [] ∨
      (pathComponents ap).dropLast.dropLast = home)
    (hact : currentVenv.any
      (fun cv => pathComponents cv == (pathComponents ap).dropLast.dropLast) =
      false) :
    deleteVenv home currentVenv isDir existsFS confirmed tracking name =
      ⟨some .unsafePath, tracking, []⟩ := by
  have hne : name.isEmpty = false := by
    cases name with
    | nil => exact absurd rfl hname
    | cons c cs => rfl
  rw [deleteVenv, if_neg (by simp [hne]), hlook]
  dsimp only
  rw [if_neg (by simp [hact]), if_pos hsafe]

/-- Witness for the amended C4 at a concrete tracking store resolving to the
home directory with no active environment. -/
theorem c4_delete_unsafe_amended_witness :
    (toL "e" ≠ [] ∧
     trackingLookup (toL "e /home/u/bin/activate\n") (toL "e") =
       some (toL "/home/u/bin/activate") ∧
     ((pathComponents (toL "/home/u/bin/activate")).dropLast.dropLast = [] ∨
      (pathComponents (toL "/home/u/bin/activate")).dropLast.dropLast =
        [toL "home", toL "u"]) ∧
     (none : Option Content).any (fun cv => pathComponents cv ==
       (pathComponents (toL "/home/u/bin/activate")).dropLast.dropLast) =
       false) ∧
    deleteVenv [toL "home", toL "u"] none (fun _ => true) (fun _ => true)
      true (toL "e /home/u/bin/activate\n") (toL "e") =
      ⟨some .unsafePath, toL "e /home/u/bin/activate\n", []⟩ :=
  ⟨⟨by decide, by decide, Or.inr (by decide), by decide⟩,
    c4_delete_unsafe_amended [toL "home", toL "u"] none (fun _ => true)
      (fun _ => true) true (toL "e /home/u/bin/activate\n") (toL "e")
      (toL "/home/u/bin/activate") (by decide) (by decide)
      (Or.inr (by decide)) (by decide)⟩
